import Mathlib

/-!
Shallow embedding of the retrogfx tile codec (src/lib/retrogfx.cpp and
src/lib/retrogfx.hpp, with the Span2D view type from src/src/retrogfx.hpp),
together with theorems settling the specification claims.

Machine integers are modelled as Nat: every value handled by the codec
(bytes, pixel indices, offsets) stays far below 2^64, where C unsigned
arithmetic and Nat agree; the one place the uint64_t width matters, the
bitwise complement inside setbits, is modelled explicitly via mask64.
Buffer reads are modelled with Option-returning readers so that an
out-of-bounds access is visible as none; C asserts are modelled as none.
-/

namespace RetroGfx

/-- TILES_PER_ROW constant from src/lib/retrogfx.hpp. -/
def TILES_PER_ROW : Nat := 16

/-- TILE_WIDTH constant from src/lib/retrogfx.hpp. -/
def TILE_WIDTH : Nat := 8

/-- TILE_HEIGHT constant from src/lib/retrogfx.hpp. -/
def TILE_HEIGHT : Nat := 8

/-- ROW_SIZE constant from src/lib/retrogfx.hpp. -/
def ROW_SIZE : Nat := TILES_PER_ROW * TILE_WIDTH

/-- MAX_BPP constant from src/lib/retrogfx.hpp. -/
def MAX_BPP : Nat := 8

/-- Format enumeration from src/lib/retrogfx.hpp. -/
inductive Format where
  | Planar
  | Interwined
  | GBA
  deriving DecidableEq, Repr

/-- bitmask(nbits) = (1UL << nbits) - 1UL from src/lib/retrogfx.cpp. -/
def bitmask (nbits : Nat) : Nat := (1 <<< nbits) - 1

/-- The all-ones 64-bit word. -/
def mask64 : Nat := 2 ^ 64 - 1

/-- uint64_t bitwise complement, exact for arguments below 2^64 (true at
every call site). -/
def compl64 (x : Nat) : Nat := mask64 ^^^ x

/-- setbits from src/lib/retrogfx.cpp (uint64_t arithmetic; all call sites
keep every operand far below 2^64, where Nat and uint64_t agree). -/
def setbits (num bitno nbits data : Nat) : Nat :=
  (num &&& compl64 (bitmask nbits <<< bitno)) ||| ((data &&& bitmask nbits) <<< bitno)

/-- setbit from src/lib/retrogfx.cpp; the C version passes data through a
bool parameter, so any nonzero value counts as 1. -/
def setbit (num bitno data : Nat) : Nat :=
  setbits num bitno 1 (if data = 0 then 0 else 1)

/-- getbits from src/lib/retrogfx.cpp. -/
def getbits (num bitno nbits : Nat) : Nat := (num >>> bitno) &&& bitmask nbits

/-- getbit from src/lib/retrogfx.cpp. -/
def getbit (num bitno : Nat) : Nat := getbits num bitno 1

namespace decoders

/-- decoders::planar from src/lib/retrogfx.cpp. The tile view is a byte
reader returning none on an out-of-bounds access; the for loop over
i = 0..bpp-1 becomes a fold that propagates a failed read. -/
def planar (tile : Nat → Option Nat) (y x bpp : Nat) : Option Nat :=
  (List.range bpp).foldl
    (fun res i =>
      match res, tile (y + i * 8) with
      | some r, some b => some (setbit r i (getbit b (7 - x)))
      | _, _ => none)
    (some 0)

/-- The for loop of decoders::interwined over the plane pairs i = 0..m-1
(m = bpp/2 at the call site). -/
def interwined_pairs (tile : Nat → Option Nat) (y x m : Nat) : Option Nat :=
  (List.range m).foldl
    (fun res i =>
      match res, tile (i * 16 + y * 2), tile (i * 16 + y * 2 + 1) with
      | some r, some lo, some hi =>
          some (setbit (setbit r (i * 2) (getbit lo (7 - x))) (i * 2 + 1)
            (getbit hi (7 - x)))
      | _, _, _ => none)
    (some 0)

/-- decoders::interwined from src/lib/retrogfx.cpp: planes paired two at a
time, plus the single trailing plane when bpp is odd. -/
def interwined (tile : Nat → Option Nat) (y x bpp : Nat) : Option Nat :=
  let paired := interwined_pairs tile y x (bpp / 2)
  if bpp % 2 ≠ 0 then
    match paired, tile (bpp / 2 * 16 + y) with
    | some r, some b => some (setbit r (bpp / 2 * 2) (getbit b (7 - x)))
    | _, _ => none
  else paired

/-- decoders::gba from src/lib/retrogfx.cpp. The assert rejecting bpp values
other than 4 and 8 is modelled as returning none. -/
def gba (tile : Nat → Option Nat) (y x bpp : Nat) : Option Nat :=
  if bpp = 4 ∨ bpp = 8 then
    (tile (y * bpp + (x >>> getbit bpp 2))).map
      (fun b => getbits b ((x &&& getbit bpp 2) <<< 2) bpp)
  else none

end decoders

/-- decode_pixel from src/lib/retrogfx.cpp. -/
def decode_pixel (tile : Nat → Option Nat) (row col bpp : Nat) (mode : Format) :
    Option Nat :=
  match mode with
  | Format.Planar => decoders.planar tile row col bpp
  | Format.Interwined => decoders.interwined tile row col bpp
  | Format.GBA => decoders.gba tile row col bpp

/-- decode_row from src/lib/retrogfx.cpp: one 128-entry pixel row. Tile n is
the bounds-checked window of bpp*8 bytes at offset n*(bpp*8) of the chunk
(the subspan taken by the C code); slots past num_tiles are filled with 0
without touching the chunk. -/
def decode_row (tiles : Nat → Option Nat) (y num_tiles bpp : Nat) (mode : Format) :
    List (Option Nat) :=
  (List.range TILES_PER_ROW).flatMap (fun n =>
    (List.range 8).map (fun x =>
      if n < num_tiles then
        decode_pixel (fun off => if off < bpp * 8 then tiles (n * (bpp * 8) + off) else none)
          y x bpp mode
      else some 0))

/-- decode from src/lib/retrogfx.cpp. The chunk loop (i = 0, base, 2*base,
... while i < bytes.size, base = bpp*8*16) is modelled as a flatMap over the
chunk indices c = 0..ceil(len/base)-1; each chunk contributes, in order, the
8 rows handed to the draw_row callback. Chunk bytes are read through the
bounds-checked subspan window of count bytes at offset c*base. -/
def decode (bytes : List Nat) (bpp : Nat) (mode : Format) : List (List (Option Nat)) :=
  let base := bpp * 8 * TILES_PER_ROW
  (List.range ((bytes.length + base - 1) / base)).flatMap (fun c =>
    let count := min (bytes.length - c * base) base
    (List.range TILE_HEIGHT).map (fun r =>
      decode_row (fun off => if off < count then bytes[c * base + off]? else none)
        r (count / (bpp * 8)) bpp mode))

namespace encoders

/-- encoders::encode_planar_row from src/lib/retrogfx.cpp: byte i collects
bit i of each of the 8 pixels of the row, pixel c landing at bit 7-c. Only
the first bpp entries of the C output array are written or later read, so
the result is the list of those bpp bytes. -/
def encode_planar_row (row : Nat → Nat) (bpp : Nat) : List Nat :=
  (List.range bpp).map (fun i =>
    (List.range 8).foldl (fun byte c => setbit byte (7 - c) (getbit (row c) i)) 0)

/-- encoders::planar from src/lib/retrogfx.cpp. -/
def planar (res : List Nat) (row : Nat → Nat) (bpp y : Nat) : List Nat :=
  let bytes := encode_planar_row row bpp
  (List.range bpp).foldl (fun r x => r.set (y + x * 8) (bytes.getD x 0)) res

/-- encoders::interwined from src/lib/retrogfx.cpp. -/
def interwined (res : List Nat) (row : Nat → Nat) (bpp y : Nat) : List Nat :=
  let bytes := encode_planar_row row bpp
  let r :=
    (List.range (bpp / 2)).foldl
      (fun r i =>
        (r.set (i * 16 + y * 2) (bytes.getD (i * 2) 0)).set (i * 16 + y * 2 + 1)
          (bytes.getD (i * 2 + 1) 0))
      res
  if bpp % 2 ≠ 0 then r.set (bpp / 2 * 16 + y) (bytes.getD (bpp / 2 * 2) 0) else r

/-- encoders::gba from src/lib/retrogfx.cpp. Note the destination byte index
is y * 4 + (x >> version) whatever the bpp, and the merge width is
8 >> version. -/
def gba (res : List Nat) (row : Nat → Nat) (bpp y : Nat) : List Nat :=
  (List.range TILE_WIDTH).foldl
    (fun r x =>
      r.set (y * 4 + (x >>> getbit bpp 2))
        (setbits (r.getD (y * 4 + (x >>> getbit bpp 2)) 0) ((x &&& getbit bpp 2) <<< 2)
          (8 >>> getbit bpp 2) (row x)))
    res

end encoders

/-- encode_tile from src/lib/retrogfx.cpp: res starts as 64 zero bytes and
each of the 8 tile rows is packed into it according to the format. The tile
argument gives the pixel at (row, column) of the 8x8 tile. -/
def encode_tile (tile : Nat → Nat → Nat) (bpp : Nat) (format : Format) : List Nat :=
  (List.range TILE_HEIGHT).foldl
    (fun res y =>
      match format with
      | Format.Planar => encoders.planar res (tile y) bpp y
      | Format.Interwined => encoders.interwined res (tile y) bpp y
      | Format.GBA => encoders.gba res (tile y) bpp y)
    (List.replicate (MAX_BPP * TILE_HEIGHT) 0)

/-- Span2D from src/src/retrogfx.hpp: a strided 2D view (data, width,
height, stride) over a flat buffer. -/
structure Span2D where
  d : List Nat
  w : Nat
  h : Nat
  s : Nat

/-- Span2D element (y, x), at flat offset y*(w+s)+x (operator[] followed by
span indexing). -/
def Span2D.px (b : Span2D) (y x : Nat) : Nat := b.d.getD (y * (b.w + b.s) + x) 0

/-- encode from src/lib/retrogfx.cpp. The error path (width or height not a
multiple of 8) is none: the error is printed and write_data is never
invoked. Otherwise the result lists, in emission order, the tiles passed to
write_data: for each tile row ty and column tx the first bpp*8 bytes of
encode_tile applied to the 8x8 subspan at (tx*8, ty*8). -/
def encode (bytes : Span2D) (bpp : Nat) (format : Format) : Option (List (List Nat)) :=
  if bytes.w % 8 = 0 ∧ bytes.h % 8 = 0 then
    some ((List.range (bytes.h / 8)).flatMap (fun ty =>
      (List.range (bytes.w / 8)).map (fun tx =>
        (encode_tile (fun r c => bytes.px (ty * 8 + r) (tx * 8 + c)) bpp format).take
          (bpp * 8))))
  else none

/-- img_height from src/lib/retrogfx.cpp. -/
def img_height (num_bytes bpp : Nat) : Nat :=
  let bpt := bpp * 8
  let base := bpt * TILES_PER_ROW
  let nb := if num_bytes % base = 0 then num_bytes else (num_bytes / base + 1) * base
  nb / bpt / TILES_PER_ROW * 8

/-- bpp_size from src/lib/retrogfx.hpp: std::pow(bpp, 2) truncated to int,
i.e. bpp squared (exact in double arithmetic for bpp ≤ 8). -/
def bpp_size (bpp : Nat) : Nat := bpp ^ 2

/-- grayscale_palette (runtime version) from src/lib/retrogfx.cpp, as the
list of bytes handed to the callback. 0xFF / (n - 1) is C integer division;
for bpp = 1 the C code divides by zero (undefined behaviour), which Nat
division renders as 0. -/
def grayscale_palette (bpp : Nat) : List Nat :=
  (List.range (bpp_size bpp)).map (fun t => 0xFF / (bpp_size bpp - 1) * t)

/-- The grayscale_palette<BPP, 3> template from src/lib/retrogfx.hpp: each
entry replicates the intensity over 3 channels. -/
def grayscale_palette3 (bpp : Nat) : List (List Nat) :=
  (List.range (bpp_size bpp)).map (fun t =>
    [0xFF / (bpp_size bpp - 1) * t, 0xFF / (bpp_size bpp - 1) * t,
      0xFF / (bpp_size bpp - 1) * t])

/-- Scan loop of find_color from src/lib/retrogfx.hpp, carrying the current
index; memcmp compares the first color.length bytes of each palette entry. -/
def find_color_go (color : List Nat) : List (List Nat) → Nat → Int
  | [], _ => -1
  | p :: ps, i =>
    if p.take color.length = color then (i : Int) else find_color_go color ps (i + 1)

/-- find_color from src/lib/retrogfx.hpp: index of the first palette entry
matching the color byte-for-byte, or -1. -/
def find_color (palette : List (List Nat)) (color : List Nat) : Int :=
  find_color_go color palette 0

/-- Loop of make_indexed from src/lib/retrogfx.hpp, recursing over the
number of remaining colors; returns the C return value together with the
list of indices passed to the output callback. -/
def make_indexed_go (palette : List (List Nat)) (channels : Nat) :
    Nat → List Nat → Nat → Int × List Nat
  | 0, _, _ => (-1, [])
  | n + 1, data, c =>
    let i := find_color palette (data.take channels)
    if i = -1 then ((c : Int), [])
    else
      let rest := make_indexed_go palette channels n (data.drop channels) (c + channels)
      (rest.1, i.toNat :: rest.2)

/-- make_indexed from src/lib/retrogfx.hpp. The C loop steps c by channels
until data.size, i.e. it runs data.length / channels times (the code asserts
that channels divides data.length); c starts at 0. -/
def make_indexed (data : List Nat) (palette : List (List Nat)) (channels : Nat) :
    Int × List Nat :=
  make_indexed_go palette channels (data.length / channels) data 0

/-- The bpp values each format accepts: 1..8 in general; the GBA decoder
asserts bpp = 4 or bpp = 8. -/
def ValidBpp (mode : Format) (bpp : Nat) : Prop :=
  match mode with
  | Format.GBA => bpp = 4 ∨ bpp = 8
  | _ => 1 ≤ bpp ∧ bpp ≤ 8

instance (m : Format) (b : Nat) : Decidable (ValidBpp m b) :=
  match m with
  | Format.Planar => inferInstanceAs (Decidable (1 ≤ b ∧ b ≤ 8))
  | Format.Interwined => inferInstanceAs (Decidable (1 ≤ b ∧ b ≤ 8))
  | Format.GBA => inferInstanceAs (Decidable (b = 4 ∨ b = 8))

/-! ### Generic list and arithmetic helpers -/

theorem length_flatMap_range {α : Type} (f : Nat → List α) (b : Nat) :
    ∀ m : Nat, (∀ c, c < m → (f c).length = b) →
      ((List.range m).flatMap f).length = m * b := by
  intro m
  induction m with
  | zero => intro _; simp
  | succ k ih =>
    intro hf
    rw [List.range_succ, List.flatMap_append]
    simp only [List.flatMap_cons, List.flatMap_nil, List.append_nil, List.length_append]
    rw [ih (fun c hc => hf c (Nat.lt_succ_of_lt hc)), hf k (Nat.lt_succ_self k)]
    rw [Nat.succ_mul]

theorem getD_flatMap_range {α : Type} (f : Nat → List α) (b : Nat) (d : α) :
    ∀ m q r : Nat, (∀ c, c < m → (f c).length = b) → q < m → r < b →
      ((List.range m).flatMap f).getD (b * q + r) d = (f q).getD r d := by
  intro m
  induction m with
  | zero => intro q r _ hq _; exact absurd hq (Nat.not_lt_zero q)
  | succ k ih =>
    intro q r hf hq hr
    rw [List.range_succ, List.flatMap_append]
    simp only [List.flatMap_cons, List.flatMap_nil, List.append_nil]
    have hlen : ((List.range k).flatMap f).length = b * k := by
      rw [length_flatMap_range f b k (fun c hc => hf c (Nat.lt_succ_of_lt hc)),
        Nat.mul_comm]
    rw [List.getD_eq_getElem?_getD, List.getElem?_append]
    by_cases hqk : q < k
    · have hstep : b * (q + 1) ≤ b * k := Nat.mul_le_mul (Nat.le_refl b) hqk
      rw [Nat.mul_succ] at hstep
      rw [if_pos (by rw [hlen]; omega), ← List.getD_eq_getElem?_getD]
      exact ih q r (fun c hc => hf c (Nat.lt_succ_of_lt hc)) hqk hr
    · have hqe : q = k := by omega
      subst hqe
      rw [if_neg (by rw [hlen]; exact Nat.not_lt.mpr (Nat.le_add_right _ _)), hlen,
        Nat.add_sub_cancel_left, ← List.getD_eq_getElem?_getD]

theorem getD_map_range {α : Type} (g : Nat → α) (d : α) {k i : Nat} (h : i < k) :
    ((List.range k).map g).getD i d = g i := by
  rw [List.getD_eq_getElem?_getD, List.getElem?_map, List.getElem?_range h]
  rfl

theorem foldl_length_eq {β : Type} (f : List Nat → β → List Nat)
    (hf : ∀ r a, (f r a).length = r.length) :
    ∀ (l : List β) (init : List Nat), (List.foldl f init l).length = init.length := by
  intro l
  induction l with
  | nil => intro init; rfl
  | cons a t ih => intro init; rw [List.foldl_cons, ih, hf]

theorem ceil_div_eq (b n : Nat) (hb : 0 < b) :
    (n + b - 1) / b = n / b + (if n % b = 0 then 0 else 1) := by
  obtain ⟨q, hq⟩ : ∃ q, n / b = q := ⟨n / b, rfl⟩
  obtain ⟨r, hr⟩ : ∃ r, n % b = r := ⟨n % b, rfl⟩
  have hrb : r < b := hr ▸ Nat.mod_lt n hb
  have hdm : b * q + r = n := by rw [← hq, ← hr]; exact Nat.div_add_mod n b
  rw [hq, hr]
  by_cases h : r = 0
  · rw [if_pos h]
    have h1 : n + b - 1 = b * q + (b - 1) := by omega
    rw [h1, Nat.mul_add_div hb, Nat.div_eq_of_lt (by omega)]
  · rw [if_neg h]
    have h1 : n + b - 1 = b * (q + 1) + (r - 1) := by rw [Nat.mul_succ]; omega
    rw [h1, Nat.mul_add_div hb, Nat.div_eq_of_lt (by omega)]

/-! ### Bit-level lemmas about the C bit utilities -/

theorem bitmask_eq (n : Nat) : bitmask n = 2 ^ n - 1 := by
  rw [bitmask, Nat.one_shiftLeft]

theorem getbit_eq_testBit (n i : Nat) : getbit n i = if n.testBit i then 1 else 0 := by
  rw [getbit, getbits, bitmask_eq]
  have h1 : (2 : Nat) ^ 1 - 1 = 1 := rfl
  rw [h1, Nat.and_one_is_mod, Nat.shiftRight_eq_div_pow, Nat.testBit_to_div_mod]
  rcases Nat.mod_two_eq_zero_or_one (n / 2 ^ i) with h | h <;> simp [h]

theorem getbit_le_one (n i : Nat) : getbit n i ≤ 1 := by
  rw [getbit_eq_testBit]
  split <;> omega

theorem getbits_eq_mod (num b w : Nat) : getbits num b w = num / 2 ^ b % 2 ^ w := by
  rw [getbits, bitmask_eq, Nat.and_pow_two_sub_one_eq_mod, Nat.shiftRight_eq_div_pow]

theorem getbits_lt (num b w : Nat) : getbits num b w < 2 ^ w := by
  rw [getbits_eq_mod]
  exact Nat.mod_lt _ (Nat.pow_pos (by omega))

theorem getbit_mod_two_pow {i w : Nat} (h : i < w) (v : Nat) :
    getbit (v % 2 ^ w) i = getbit v i := by
  rw [getbit_eq_testBit, getbit_eq_testBit, Nat.testBit_mod_two_pow]
  simp [h]

theorem testBit_setbits (num bitno nbits data : Nat) {j : Nat} (hj : j < 64) :
    (setbits num bitno nbits data).testBit j =
      if bitno ≤ j ∧ j < bitno + nbits then data.testBit (j - bitno)
      else num.testBit j := by
  rw [setbits, compl64, mask64, bitmask_eq]
  simp only [Nat.testBit_lor, Nat.testBit_land, Nat.testBit_xor, Nat.testBit_shiftLeft,
    Nat.testBit_two_pow_sub_one]
  by_cases h1 : bitno ≤ j
  · by_cases h2 : j < bitno + nbits
    · rw [if_pos ⟨h1, h2⟩]
      simp [h1, hj, ge_iff_le, show j - bitno < nbits by omega]
    · rw [if_neg (fun hc => h2 hc.2)]
      simp [h1, hj, ge_iff_le, show ¬(j - bitno < nbits) by omega]
  · rw [if_neg (fun hc => h1 hc.1)]
    simp [h1, hj, ge_iff_le]

theorem testBit_setbit (num i d : Nat) {j : Nat} (hj : j < 64) :
    (setbit num i d).testBit j =
      if j = i then decide (d ≠ 0) else num.testBit j := by
  rw [setbit, testBit_setbits num i 1 _ hj]
  by_cases he : j = i
  · subst he
    rw [if_pos ⟨Nat.le_refl j, by omega⟩, if_pos rfl, Nat.sub_self]
    by_cases hd : d = 0
    · simp [hd]
    · have h1 : (if d = 0 then (0 : Nat) else 1) = 1 := if_neg hd
      simp [h1, hd, Nat.testBit_zero]
  · rw [if_neg (by omega), if_neg he]

theorem getbit_setbit_self (num i d : Nat) (hi : i < 64) :
    getbit (setbit num i d) i = if d = 0 then 0 else 1 := by
  rw [getbit_eq_testBit, testBit_setbit num i d hi, if_pos rfl]
  by_cases hd : d = 0 <;> simp [hd]

theorem getbit_setbit_ne (num i d : Nat) {j : Nat} (hj : j < 64) (hne : j ≠ i) :
    getbit (setbit num i d) j = getbit num j := by
  rw [getbit_eq_testBit, getbit_eq_testBit, testBit_setbit num i d hj, if_neg hne]

theorem setbit_lt_two_pow {r n i : Nat} (hr : r < 2 ^ n) (hi : i < n) (d : Nat) :
    setbit r i d < 2 ^ n := by
  rw [setbit, setbits]
  apply Nat.or_lt_two_pow
  · exact Nat.lt_of_le_of_lt Nat.and_le_left hr
  · rw [Nat.shiftLeft_eq]
    have h1 : (if d = 0 then (0:Nat) else 1) &&& bitmask 1 ≤ 1 := by
      rw [bitmask_eq]
      exact Nat.le_trans Nat.and_le_right (by norm_num)
    calc ((if d = 0 then (0:Nat) else 1) &&& bitmask 1) * 2 ^ i ≤ 1 * 2 ^ i :=
          Nat.mul_le_mul h1 (Nat.le_refl _)
      _ = 2 ^ i := Nat.one_mul _
      _ < 2 ^ n := Nat.pow_lt_pow_right (by omega) hi

theorem setbits_mod (num b w d : Nat) :
    setbits num b w (d % 2 ^ w) = setbits num b w d := by
  rw [setbits, setbits, bitmask_eq, Nat.and_pow_two_sub_one_eq_mod,
    Nat.and_pow_two_sub_one_eq_mod, Nat.mod_mod_of_dvd _ dvd_rfl]

/-! ### Decoder lemmas -/

theorem planar_succ (tile : Nat → Option Nat) (y x bpp : Nat) :
    decoders.planar tile y x (bpp + 1) =
      match decoders.planar tile y x bpp, tile (y + bpp * 8) with
      | some r, some b => some (setbit r bpp (getbit b (7 - x)))
      | _, _ => none := by
  simp only [decoders.planar]
  rw [List.range_succ, List.foldl_append, List.foldl_cons, List.foldl_nil]

theorem planar_lt (tile : Nat → Option Nat) (y x : Nat) :
    ∀ bpp v, decoders.planar tile y x bpp = some v → v < 2 ^ bpp := by
  intro bpp
  induction bpp with
  | zero =>
    intro v h
    simp [decoders.planar] at h
    omega
  | succ k ih =>
    intro v h
    rw [planar_succ] at h
    cases hr : decoders.planar tile y x k with
    | none => rw [hr] at h; simp at h
    | some r =>
      cases hb : tile (y + k * 8) with
      | none => rw [hr, hb] at h; simp at h
      | some b =>
        rw [hr, hb] at h
        have hv : setbit r k (getbit b (7 - x)) = v := Option.some.inj h
        rw [← hv]
        exact setbit_lt_two_pow
          (Nat.lt_of_lt_of_le (ih r hr) (Nat.pow_le_pow_right (by omega) (Nat.le_succ k)))
          (Nat.lt_succ_self k) _

theorem planar_isSome (tile : Nat → Option Nat) (y x : Nat) :
    ∀ bpp, (∀ i, i < bpp → (tile (y + i * 8)).isSome = true) →
      (decoders.planar tile y x bpp).isSome = true := by
  intro bpp
  induction bpp with
  | zero => intro _; rfl
  | succ k ih =>
    intro hreads
    rw [planar_succ]
    obtain ⟨r, hr⟩ :=
      Option.isSome_iff_exists.mp (ih (fun i hi => hreads i (Nat.lt_succ_of_lt hi)))
    obtain ⟨b, hb⟩ := Option.isSome_iff_exists.mp (hreads k (Nat.lt_succ_self k))
    rw [hr, hb]
    rfl

theorem planar_bits (tile : Nat → Option Nat) (y x : Nat) :
    ∀ bpp, bpp ≤ 64 → ∀ v, decoders.planar tile y x bpp = some v →
      ∀ i, i < bpp → ∃ b, tile (y + i * 8) = some b ∧ getbit v i = getbit b (7 - x) := by
  intro bpp
  induction bpp with
  | zero => intro _ v _ i hi; exact absurd hi (Nat.not_lt_zero i)
  | succ k ih =>
    intro hk v h i hi
    rw [planar_succ] at h
    cases hr : decoders.planar tile y x k with
    | none => rw [hr] at h; simp at h
    | some r =>
      cases hb : tile (y + k * 8) with
      | none => rw [hr, hb] at h; simp at h
      | some b =>
        rw [hr, hb] at h
        have hv : setbit r k (getbit b (7 - x)) = v := Option.some.inj h
        by_cases hik : i = k
        · subst hik
          refine ⟨b, hb, ?_⟩
          rw [← hv, getbit_setbit_self r i _ (by omega)]
          by_cases hz : getbit b (7 - x) = 0
          · rw [hz, if_pos rfl]
          · rw [if_neg hz]
            have := getbit_le_one b (7 - x)
            omega
        · obtain ⟨c, hc, hg⟩ := ih (by omega) r hr i (by omega)
          refine ⟨c, hc, ?_⟩
          rw [← hv, getbit_setbit_ne r k _ (show i < 64 by omega) hik, hg]

theorem interwined_pairs_succ (tile : Nat → Option Nat) (y x m : Nat) :
    decoders.interwined_pairs tile y x (m + 1) =
      match decoders.interwined_pairs tile y x m, tile (m * 16 + y * 2),
          tile (m * 16 + y * 2 + 1) with
      | some r, some lo, some hi =>
          some (setbit (setbit r (m * 2) (getbit lo (7 - x))) (m * 2 + 1)
            (getbit hi (7 - x)))
      | _, _, _ => none := by
  simp only [decoders.interwined_pairs]
  rw [List.range_succ, List.foldl_append, List.foldl_cons, List.foldl_nil]

theorem interwined_pairs_lt (tile : Nat → Option Nat) (y x : Nat) :
    ∀ m r, decoders.interwined_pairs tile y x m = some r → r < 2 ^ (2 * m) := by
  intro m
  induction m with
  | zero =>
    intro r h
    simp [decoders.interwined_pairs] at h
    omega
  | succ k ih =>
    intro r h
    rw [interwined_pairs_succ] at h
    cases hr : decoders.interwined_pairs tile y x k with
    | none => rw [hr] at h; simp at h
    | some r0 =>
      cases hlo : tile (k * 16 + y * 2) with
      | none => rw [hr, hlo] at h; simp at h
      | some lo =>
        cases hhi : tile (k * 16 + y * 2 + 1) with
        | none => rw [hr, hlo, hhi] at h; simp at h
        | some hi =>
          rw [hr, hlo, hhi] at h
          have hv := Option.some.inj h
          rw [← hv]
          have h0 : r0 < 2 ^ (2 * (k + 1)) :=
            Nat.lt_of_lt_of_le (ih r0 hr) (Nat.pow_le_pow_right (by omega) (by omega))
          exact setbit_lt_two_pow (setbit_lt_two_pow h0 (by omega) _) (by omega) _

theorem interwined_pairs_isSome (tile : Nat → Option Nat) (y x : Nat) :
    ∀ m, (∀ i, i < m →
        (tile (i * 16 + y * 2)).isSome = true ∧ (tile (i * 16 + y * 2 + 1)).isSome = true) →
      (decoders.interwined_pairs tile y x m).isSome = true := by
  intro m
  induction m with
  | zero => intro _; rfl
  | succ k ih =>
    intro hreads
    rw [interwined_pairs_succ]
    obtain ⟨r, hr⟩ :=
      Option.isSome_iff_exists.mp (ih (fun i hi => hreads i (Nat.lt_succ_of_lt hi)))
    obtain ⟨lo, hlo⟩ :=
      Option.isSome_iff_exists.mp (hreads k (Nat.lt_succ_self k)).1
    obtain ⟨hi2, hhi⟩ :=
      Option.isSome_iff_exists.mp (hreads k (Nat.lt_succ_self k)).2
    rw [hr, hlo, hhi]
    rfl

theorem interwined_lt (tile : Nat → Option Nat) (y x bpp v : Nat)
    (h : decoders.interwined tile y x bpp = some v) : v < 2 ^ bpp := by
  simp only [decoders.interwined] at h
  by_cases hodd : bpp % 2 ≠ 0
  · rw [if_pos hodd] at h
    cases hp : decoders.interwined_pairs tile y x (bpp / 2) with
    | none => rw [hp] at h; simp at h
    | some r =>
      cases ht : tile (bpp / 2 * 16 + y) with
      | none => rw [hp, ht] at h; simp at h
      | some b =>
        rw [hp, ht] at h
        have hv := Option.some.inj h
        rw [← hv]
        have h0 : r < 2 ^ bpp :=
          Nat.lt_of_lt_of_le (interwined_pairs_lt tile y x _ r hp)
            (Nat.pow_le_pow_right (by omega) (by omega))
        exact setbit_lt_two_pow h0 (by omega) _
  · rw [if_neg hodd] at h
    have he : 2 * (bpp / 2) = bpp := by omega
    exact he ▸ interwined_pairs_lt tile y x _ v h

theorem interwined_isSome (tile : Nat → Option Nat) (y x bpp : Nat) (hy : y < 8)
    (hreads : ∀ off, off < bpp * 8 → (tile off).isSome = true) :
    (decoders.interwined tile y x bpp).isSome = true := by
  simp only [decoders.interwined]
  have hpairs : (decoders.interwined_pairs tile y x (bpp / 2)).isSome = true := by
    apply interwined_pairs_isSome
    intro i hi
    constructor <;> (apply hreads; omega)
  by_cases hodd : bpp % 2 ≠ 0
  · rw [if_pos hodd]
    obtain ⟨r, hr⟩ := Option.isSome_iff_exists.mp hpairs
    obtain ⟨b, hb⟩ := Option.isSome_iff_exists.mp (hreads (bpp / 2 * 16 + y) (by omega))
    rw [hr, hb]
    rfl
  · rw [if_neg hodd]
    exact hpairs

theorem gba_lt (tile : Nat → Option Nat) (y x bpp v : Nat)
    (h : decoders.gba tile y x bpp = some v) : v < 2 ^ bpp := by
  simp only [decoders.gba] at h
  by_cases hb : bpp = 4 ∨ bpp = 8
  · rw [if_pos hb] at h
    cases ht : tile (y * bpp + (x >>> getbit bpp 2)) with
    | none => rw [ht] at h; simp at h
    | some b =>
      rw [ht] at h
      rw [← Option.some.inj h]
      exact getbits_lt b _ bpp
  · rw [if_neg hb] at h
    simp at h

theorem gba_isSome (tile : Nat → Option Nat) (y x bpp : Nat) (hb : bpp = 4 ∨ bpp = 8)
    (ht : (tile (y * bpp + (x >>> getbit bpp 2))).isSome = true) :
    (decoders.gba tile y x bpp).isSome = true := by
  simp only [decoders.gba]
  rw [if_pos hb]
  obtain ⟨b, hbb⟩ := Option.isSome_iff_exists.mp ht
  rw [hbb]
  rfl

theorem decode_pixel_lt (tile : Nat → Option Nat) (y x bpp : Nat) (mode : Format)
    (v : Nat) (h : decode_pixel tile y x bpp mode = some v) : v < 2 ^ bpp := by
  cases mode with
  | Planar => exact planar_lt tile y x bpp v h
  | Interwined => exact interwined_lt tile y x bpp v h
  | GBA => exact gba_lt tile y x bpp v h

theorem decode_pixel_isSome (tile : Nat → Option Nat) (y x bpp : Nat) (mode : Format)
    (hv : ValidBpp mode bpp) (hy : y < 8) (hx : x < 8)
    (hreads : ∀ off, off < bpp * 8 → (tile off).isSome = true) :
    (decode_pixel tile y x bpp mode).isSome = true := by
  cases mode with
  | Planar =>
    apply planar_isSome
    intro i hi
    apply hreads
    omega
  | Interwined => exact interwined_isSome tile y x bpp hy hreads
  | GBA =>
    apply gba_isSome tile y x bpp hv
    apply hreads
    rcases hv with h4 | h8
    · subst h4
      have hg : getbit 4 2 = 1 := rfl
      rw [hg, Nat.shiftRight_eq_div_pow]
      have : x / 2 ^ 1 = x / 2 := by norm_num
      rw [this]
      omega
    · subst h8
      have hg : getbit 8 2 = 0 := rfl
      rw [hg, Nat.shiftRight_eq_div_pow]
      have : x / 2 ^ 0 = x := by norm_num
      rw [this]
      omega

/-! ### Encoder lemmas -/

theorem encoders_planar_length (res : List Nat) (row : Nat → Nat) (bpp y : Nat) :
    (encoders.planar res row bpp y).length = res.length := by
  simp only [encoders.planar]
  exact foldl_length_eq _ (fun r a => List.length_set r _ _) _ res

theorem encoders_interwined_length (res : List Nat) (row : Nat → Nat) (bpp y : Nat) :
    (encoders.interwined res row bpp y).length = res.length := by
  simp only [encoders.interwined]
  have hfold :
      ((List.range (bpp / 2)).foldl
        (fun r i =>
          (r.set (i * 16 + y * 2) ((encoders.encode_planar_row row bpp).getD (i * 2) 0)).set
            (i * 16 + y * 2 + 1) ((encoders.encode_planar_row row bpp).getD (i * 2 + 1) 0))
        res).length = res.length :=
    foldl_length_eq _ (fun r a => by rw [List.length_set, List.length_set]) _ res
  by_cases hodd : bpp % 2 ≠ 0
  · rw [if_pos hodd, List.length_set, hfold]
  · rw [if_neg hodd, hfold]

theorem encoders_gba_length (res : List Nat) (row : Nat → Nat) (bpp y : Nat) :
    (encoders.gba res row bpp y).length = res.length := by
  simp only [encoders.gba]
  exact foldl_length_eq _ (fun r a => List.length_set r _ _) _ res

theorem encode_tile_length (tile : Nat → Nat → Nat) (bpp : Nat) (format : Format) :
    (encode_tile tile bpp format).length = 64 := by
  simp only [encode_tile]
  rw [foldl_length_eq _ _ _ _]
  · rfl
  · intro r a
    cases format with
    | Planar => exact encoders_planar_length r (tile a) bpp a
    | Interwined => exact encoders_interwined_length r (tile a) bpp a
    | GBA => exact encoders_gba_length r (tile a) bpp a

theorem encode_planar_row_mod (row : Nat → Nat) (bpp : Nat) :
    encoders.encode_planar_row (fun c => row c % 2 ^ bpp) bpp =
      encoders.encode_planar_row row bpp := by
  simp only [encoders.encode_planar_row]
  apply List.map_congr_left
  intro i hi
  rw [List.mem_range] at hi
  apply List.foldl_ext
  intro b c _
  rw [getbit_mod_two_pow hi]

theorem encoders_planar_mod (res : List Nat) (row : Nat → Nat) (bpp y : Nat) :
    encoders.planar res (fun c => row c % 2 ^ bpp) bpp y =
      encoders.planar res row bpp y := by
  simp only [encoders.planar]
  rw [encode_planar_row_mod]

theorem encoders_interwined_mod (res : List Nat) (row : Nat → Nat) (bpp y : Nat) :
    encoders.interwined res (fun c => row c % 2 ^ bpp) bpp y =
      encoders.interwined res row bpp y := by
  simp only [encoders.interwined]
  rw [encode_planar_row_mod]

theorem encoders_gba_mod (res : List Nat) (row : Nat → Nat) (bpp y : Nat)
    (hb : bpp = 4 ∨ bpp = 8) :
    encoders.gba res (fun c => row c % 2 ^ bpp) bpp y = encoders.gba res row bpp y := by
  rcases hb with h | h
  · subst h
    simp only [encoders.gba]
    apply List.foldl_ext
    intro r x _
    have hw : (8 >>> getbit 4 2) = 4 := rfl
    rw [hw, setbits_mod]
  · subst h
    simp only [encoders.gba]
    apply List.foldl_ext
    intro r x _
    have hw : (8 >>> getbit 8 2) = 8 := rfl
    rw [hw, setbits_mod]

theorem encode_tile_mod (tile : Nat → Nat → Nat) (bpp : Nat) (format : Format)
    (hv : ValidBpp format bpp) :
    encode_tile (fun y x => tile y x % 2 ^ bpp) bpp format = encode_tile tile bpp format := by
  simp only [encode_tile]
  apply List.foldl_ext
  intro res y _
  cases format with
  | Planar => exact encoders_planar_mod res (tile y) bpp y
  | Interwined => exact encoders_interwined_mod res (tile y) bpp y
  | GBA => exact encoders_gba_mod res (tile y) bpp y hv

/-- C9: decoded pixel values are always below 2^bpp (for every format, tile
view, row and column), and for every bpp valid for the format the encoders
depend only on the low bpp bits of each input pixel: masking every pixel to
bpp bits leaves the encoded tile unchanged. -/
theorem C9_pixel_value_range :
    (∀ (tile : Nat → Option Nat) (y x bpp : Nat) (mode : Format) (v : Nat),
        decode_pixel tile y x bpp mode = some v → v < 2 ^ bpp) ∧
    (∀ (tile : Nat → Nat → Nat) (bpp : Nat) (format : Format), ValidBpp format bpp →
        encode_tile (fun y x => tile y x % 2 ^ bpp) bpp format =
          encode_tile tile bpp format) :=
  ⟨fun tile y x bpp mode v h => decode_pixel_lt tile y x bpp mode v h,
   fun tile bpp format hv => encode_tile_mod tile bpp format hv⟩

/-- Witness for C9 at a concrete input: a GBA 4bpp pixel decoded from an
all-0xFF tile is 15 < 2^4, and masking an all-255 tile to 4 bits does not
change its planar encoding. -/
theorem C9_pixel_value_range_witness :
    (15 : Nat) < 2 ^ 4 ∧
      encode_tile (fun y x => (fun _ _ : Nat => (255 : Nat)) y x % 2 ^ 4) 4 Format.Planar =
        encode_tile (fun _ _ : Nat => (255 : Nat)) 4 Format.Planar :=
  ⟨C9_pixel_value_range.1 (fun _ => some 255) 0 0 4 Format.GBA 15 (by decide),
   C9_pixel_value_range.2 (fun _ _ => 255) 4 Format.Planar (by decide)⟩

/-! ### Decode orchestration lemmas and claims C10, C5 -/

theorem ValidBpp_bounds (mode : Format) (bpp : Nat) (h : ValidBpp mode bpp) :
    1 ≤ bpp ∧ bpp ≤ 8 := by
  cases mode with
  | Planar => exact h
  | Interwined => exact h
  | GBA => rcases h with h4 | h8 <;> omega

theorem chunk_offset_le (base c L : Nat) (hbase : 0 < base)
    (hc : c < (L + base - 1) / base) : c * base ≤ L := by
  rw [ceil_div_eq base L hbase] at hc
  by_cases h : L % base = 0
  · rw [if_pos h] at hc
    have h2 : (c + 1) * base ≤ L := (Nat.le_div_iff_mul_le hbase).mp (by omega)
    rw [Nat.succ_mul] at h2
    omega
  · rw [if_neg h] at hc
    have h2 : c * base ≤ L / base * base :=
      Nat.mul_le_mul_right base (by omega)
    exact Nat.le_trans h2 (Nat.div_mul_le_self L base)

/-- C10: decode never reads outside its input buffer: in this embedding every
buffer access returns none when out of bounds (including reads outside the
bpp*8-byte tile window and the assert inside the GBA decoder), and for every
byte buffer and valid bpp every pixel decode produces a value, so the
out-of-bounds branch is never taken; padding slots are filled with 0 without
any read. -/
theorem C10_decode_no_oob (bytes : List Nat) (bpp : Nat) (mode : Format)
    (hv : ValidBpp mode bpp) :
    ∀ row ∈ decode bytes bpp mode, ∀ p ∈ row, p.isSome = true := by
  obtain ⟨hb1, hb8⟩ := ValidBpp_bounds mode bpp hv
  intro row hrow p hp
  simp only [decode] at hrow
  rw [List.mem_flatMap] at hrow
  obtain ⟨c, hc, hrow2⟩ := hrow
  rw [List.mem_range] at hc
  rw [List.mem_map] at hrow2
  obtain ⟨r, hr, hrow3⟩ := hrow2
  rw [List.mem_range] at hr
  have hr8 : r < 8 := by simpa [TILE_HEIGHT] using hr
  subst hrow3
  simp only [decode_row] at hp
  rw [List.mem_flatMap] at hp
  obtain ⟨n, hn, hp2⟩ := hp
  rw [List.mem_range] at hn
  rw [List.mem_map] at hp2
  obtain ⟨x, hx, hp3⟩ := hp2
  rw [List.mem_range] at hx
  subst hp3
  by_cases hlt : n < min (bytes.length - c * (bpp * 8 * TILES_PER_ROW)) (bpp * 8 * TILES_PER_ROW) / (bpp * 8)
  · rw [if_pos hlt]
    apply decode_pixel_isSome _ _ _ _ _ hv hr8 hx
    intro off hoff
    rw [if_pos hoff]
    have hT : TILES_PER_ROW = 16 := rfl
    rw [hT] at hlt hc ⊢
    set L := bytes.length with hL
    set base := bpp * 8 * 16 with hbase
    have hbase_pos : 0 < base := by rw [hbase]; omega
    have hco : c * base ≤ L := chunk_offset_le base c L hbase_pos hc
    have hcount : min (L - c * base) base ≤ L - c * base := Nat.min_le_left _ _
    have htile : (n + 1) * (bpp * 8) ≤ min (L - c * base) base :=
      (Nat.le_div_iff_mul_le (by omega)).mp hlt
    rw [Nat.succ_mul] at htile
    have hin : n * (bpp * 8) + off < min (L - c * base) base := by omega
    rw [if_pos hin]
    have hidx : c * base + (n * (bpp * 8) + off) < L := by omega
    rw [List.getElem?_eq_getElem hidx]
    rfl
  · rw [if_neg hlt]
    rfl

/-- Witness for C10 at a concrete input: the first pixel of the decoded
first row of a 16-byte buffer (bpp = 1, Planar) is a produced value. -/
theorem C10_decode_no_oob_witness :
    (((decode (List.replicate 16 0) 1 Format.Planar).getD 0 []).getD 0 none).isSome
      = true :=
  C10_decode_no_oob (List.replicate 16 0) 1 Format.Planar (by decide)
    ((decode (List.replicate 16 0) 1 Format.Planar).getD 0 []) (by decide)
    (((decode (List.replicate 16 0) 1 Format.Planar).getD 0 []).getD 0 none) (by decide)

/-- C5: when the byte length is not a multiple of bpp*8*16, the final
partial row-group decodes with zero-valued pixels in every tile slot n at or
past floor(remaining/(bpp*8)), where remaining = length mod bpp*8*16; the
slack bytes smaller than one tile are dropped by the integer division, not
treated as an error. -/
theorem C5_partial_chunk_padding (bytes : List Nat) (bpp : Nat) (mode : Format)
    (hb1 : 1 ≤ bpp) (hb8 : bpp ≤ 8)
    (hrem : bytes.length % (bpp * 8 * 16) ≠ 0)
    (r n x : Nat) (hr : r < 8) (hn : n < 16) (hx : x < 8)
    (hslot : bytes.length % (bpp * 8 * 16) / (bpp * 8) ≤ n) :
    ((decode bytes bpp mode).getD (8 * (bytes.length / (bpp * 8 * 16)) + r) []).getD
      (n * 8 + x) none = some 0 := by
  simp only [decode]
  have hT : TILES_PER_ROW = 16 := rfl
  have hH : TILE_HEIGHT = 8 := rfl
  rw [hT, hH]
  set L := bytes.length with hL
  set base := bpp * 8 * 16 with hbase
  have hbase_pos : 0 < base := by rw [hbase]; omega
  have hq : (L + base - 1) / base = L / base + 1 := by
    rw [ceil_div_eq base L hbase_pos, if_neg hrem]
  rw [hq]
  rw [getD_flatMap_range _ 8 [] (L / base + 1) (L / base) r
    (by intro c hc; rw [List.length_map, List.length_range]) (Nat.lt_succ_self _) hr]
  rw [getD_map_range _ _ hr]
  have hcount : min (L - L / base * base) base = L % base := by
    have hd := Nat.div_add_mod L base
    have hmlt : L % base < base := Nat.mod_lt L hbase_pos
    have hc2 : L / base * base = base * (L / base) := Nat.mul_comm _ _
    omega
  rw [hcount]
  simp only [decode_row]
  rw [hT]
  rw [show n * 8 + x = 8 * n + x from by omega]
  rw [getD_flatMap_range _ 8 none 16 n x
    (by intro k hk; rw [List.length_map, List.length_range]) hn hx]
  rw [getD_map_range _ _ hx]
  rw [if_neg (Nat.not_lt.mpr hslot)]

/-- Witness for C5 at a concrete input: 24 bytes at bpp = 2 leave one full
tile plus 8 slack bytes, so tile slot 1 of the (single, partial) row-group
decodes to 0. -/
theorem C5_partial_chunk_padding_witness :
    (List.replicate 24 (255 : Nat)).length % (2 * 8 * 16) ≠ 0 ∧
      ((decode (List.replicate 24 255) 2 Format.Planar).getD
          (8 * ((List.replicate 24 (255 : Nat)).length / (2 * 8 * 16)) + 0) []).getD
        (1 * 8 + 0) none = some 0 :=
  ⟨by decide,
   C5_partial_chunk_padding (List.replicate 24 255) 2 Format.Planar (by decide)
     (by decide) (by decide) 0 1 0 (by decide) (by decide) (by decide) (by decide)⟩

/-! ### Claims C7 and C6 -/

/-- C7: with width and height multiples of 8, encode invokes the sink once
per 8x8 tile — (w/8)*(h/8) invocations in row-major tile order (tile ty*tw +
tx is the tile at column tx of tile row ty) — and every emitted tile is
exactly bpp*8 bytes regardless of format. -/
theorem C7_encode_tile_emission (b : Span2D) (bpp : Nat) (format : Format)
    (out : List (List Nat)) (hb1 : 1 ≤ bpp) (hb8 : bpp ≤ 8)
    (henc : encode b bpp format = some out) :
    out.length = (b.w / 8) * (b.h / 8) ∧
    (∀ t ∈ out, t.length = bpp * 8) ∧
    (∀ ty tx, ty < b.h / 8 → tx < b.w / 8 →
      out.getD (b.w / 8 * ty + tx) [] =
        (encode_tile (fun r c => b.px (ty * 8 + r) (tx * 8 + c)) bpp format).take
          (bpp * 8)) := by
  simp only [encode] at henc
  by_cases hdim : b.w % 8 = 0 ∧ b.h % 8 = 0
  · rw [if_pos hdim] at henc
    have hout := (Option.some.inj henc).symm
    subst hout
    refine ⟨?_, ?_, ?_⟩
    · rw [length_flatMap_range _ (b.w / 8) (b.h / 8)
        (fun c hc => by rw [List.length_map, List.length_range]), Nat.mul_comm]
    · intro t ht
      rw [List.mem_flatMap] at ht
      obtain ⟨ty, hty, ht2⟩ := ht
      rw [List.mem_map] at ht2
      obtain ⟨tx, htx, ht3⟩ := ht2
      rw [← ht3, List.length_take, encode_tile_length]
      omega
    · intro ty tx hty htx
      rw [getD_flatMap_range _ (b.w / 8) [] (b.h / 8) ty tx
        (fun c hc => by rw [List.length_map, List.length_range]) hty htx]
      rw [getD_map_range _ _ htx]
  · rw [if_neg hdim] at henc
    simp at henc

/-- Witness for C7 at a concrete input: an all-zero 8x8 buffer at bpp = 2
emits exactly one tile. -/
theorem C7_encode_tile_emission_witness :
    [List.replicate 16 (0 : Nat)].length = (8 / 8) * (8 / 8) :=
  (C7_encode_tile_emission ⟨List.replicate 64 0, 8, 8, 0⟩ 2 Format.Planar
    [List.replicate 16 0] (by decide) (by decide) (by decide)).1

/-- C6: the planar decoder reads index bit i of pixel (y, x) from bit (7-x)
of tile byte y + i*8, and the 2bpp scenario with plane 0 = FF 0 0 0 0 0 0 0
and plane 1 all zero decodes row 0 of its tile to eight 1 pixels and every
other row to eight 0 pixels. -/
theorem C6_planar_bit_layout :
    (∀ (tile : Nat → Option Nat) (y x bpp v : Nat), bpp ≤ 8 → y < 8 → x < 8 →
        decoders.planar tile y x bpp = some v →
        ∀ i, i < bpp → ∃ b, tile (y + i * 8) = some b ∧ getbit v i = getbit b (7 - x)) ∧
    (decode [0xFF, 0, 0, 0, 0, 0, 0, 0, 0, 0, 0, 0, 0, 0, 0, 0] 2 Format.Planar).map
        (fun row => row.take 8) =
      [List.replicate 8 (some 1), List.replicate 8 (some 0), List.replicate 8 (some 0),
        List.replicate 8 (some 0), List.replicate 8 (some 0), List.replicate 8 (some 0),
        List.replicate 8 (some 0), List.replicate 8 (some 0)] := by
  constructor
  · intro tile y x bpp v hbpp _ _ h i hi
    exact planar_bits tile y x bpp (by omega) v h i hi
  · decide

/-- Witness for C6 at a concrete input: decoding pixel (0, 0) of an all-0xFF
tile at bpp = 2 gives value 3, whose bit 0 agrees with bit 7 of byte 0. -/
theorem C6_planar_bit_layout_witness :
    ∃ b, (fun _ : Nat => some (255 : Nat)) (0 + 0 * 8) = some b ∧
      getbit 3 0 = getbit b (7 - 0) :=
  C6_planar_bit_layout.1 (fun _ => some 255) 0 0 2 3 (by decide) (by decide) (by decide)
    (by decide) 0 (by decide)

/-! ### Claim C8: find_color and make_indexed -/

theorem find_color_go_spec (color : List Nat) :
    ∀ (ps : List (List Nat)) (k : Nat),
      (find_color_go color ps k = -1 ∧
        ∀ j, j < ps.length → (ps.getD j []).take color.length ≠ color) ∨
      (∃ i, i < ps.length ∧ find_color_go color ps k = ((k + i : Nat) : Int) ∧
        (ps.getD i []).take color.length = color ∧
        ∀ j, j < i → (ps.getD j []).take color.length ≠ color) := by
  intro ps
  induction ps with
  | nil => intro k; left; exact ⟨rfl, fun j hj => absurd hj (Nat.not_lt_zero j)⟩
  | cons p ps ih =>
    intro k
    by_cases hp : p.take color.length = color
    · right
      refine ⟨0, Nat.succ_pos _, ?_, ?_, ?_⟩
      · simp only [find_color_go]
        rw [if_pos hp, Nat.add_zero]
      · rw [List.getD_cons_zero]; exact hp
      · intro j hj; exact absurd hj (Nat.not_lt_zero j)
    · rcases ih (k + 1) with ⟨hres, hall⟩ | ⟨i, hi, hres, hmatch, hbefore⟩
      · left
        constructor
        · simp only [find_color_go]; rw [if_neg hp]; exact hres
        · intro j hj
          cases j with
          | zero => rw [List.getD_cons_zero]; exact hp
          | succ j2 =>
            rw [List.getD_cons_succ]
            exact hall j2 (by rw [List.length_cons] at hj; omega)
      · right
        refine ⟨i + 1, by rw [List.length_cons]; omega, ?_, ?_, ?_⟩
        · simp only [find_color_go]
          rw [if_neg hp, hres]
          congr 1
          omega
        · rw [List.getD_cons_succ]; exact hmatch
        · intro j hj
          cases j with
          | zero => rw [List.getD_cons_zero]; exact hp
          | succ j2 => rw [List.getD_cons_succ]; exact hbefore j2 (by omega)

theorem make_indexed_go_success (palette : List (List Nat)) (channels : Nat) :
    ∀ (n : Nat) (data : List Nat) (c : Nat),
      (∀ k, k < n → find_color palette ((data.drop (k * channels)).take channels) ≠ -1) →
      make_indexed_go palette channels n data c =
        (-1, (List.range n).map
          (fun k => (find_color palette ((data.drop (k * channels)).take channels)).toNat)) := by
  intro n
  induction n with
  | zero => intro data c _; rfl
  | succ m ih =>
    intro data c hfind
    simp only [make_indexed_go]
    have h0 : find_color palette (data.take channels) ≠ -1 := by
      have h := hfind 0 (Nat.succ_pos m)
      rw [Nat.zero_mul, List.drop_zero] at h
      exact h
    rw [if_neg h0]
    rw [ih (data.drop channels) (c + channels)
      (by
        intro k hk
        rw [List.drop_drop]
        have h := hfind (k + 1) (by omega)
        rw [show channels + k * channels = (k + 1) * channels from by
          rw [Nat.succ_mul]; omega]
        exact h)]
    simp only [Prod.mk.injEq, List.range_succ_eq_map, List.map_cons, List.map_map,
      Nat.zero_mul, List.drop_zero, List.cons.injEq, true_and]
    apply List.map_congr_left
    intro k hk
    simp only [Function.comp_apply]
    rw [List.drop_drop]
    rw [show channels + k * channels = Nat.succ k * channels from by
      rw [Nat.succ_mul]; omega]

theorem make_indexed_go_fail (palette : List (List Nat)) (channels : Nat) :
    ∀ (n : Nat) (data : List Nat) (c k0 : Nat), k0 < n →
      find_color palette ((data.drop (k0 * channels)).take channels) = -1 →
      (∀ k, k < k0 → find_color palette ((data.drop (k * channels)).take channels) ≠ -1) →
      make_indexed_go palette channels n data c =
        (((c + k0 * channels : Nat) : Int),
          (List.range k0).map
            (fun k => (find_color palette ((data.drop (k * channels)).take channels)).toNat)) := by
  intro n
  induction n with
  | zero => intro data c k0 hk0 _ _; exact absurd hk0 (Nat.not_lt_zero k0)
  | succ m ih =>
    intro data c k0 hk0 hfail hbefore
    simp only [make_indexed_go]
    cases k0 with
    | zero =>
      have h0 : find_color palette (data.take channels) = -1 := by
        rw [Nat.zero_mul, List.drop_zero] at hfail
        exact hfail
      rw [if_pos h0]
      simp
    | succ j =>
      have h0 : find_color palette (data.take channels) ≠ -1 := by
        have h := hbefore 0 (Nat.succ_pos j)
        rw [Nat.zero_mul, List.drop_zero] at h
        exact h
      rw [if_neg h0]
      rw [ih (data.drop channels) (c + channels) j (by omega)
        (by
          rw [List.drop_drop]
          rw [show channels + j * channels = (j + 1) * channels from by
            rw [Nat.succ_mul]; omega]
          exact hfail)
        (by
          intro k hk
          rw [List.drop_drop]
          have h := hbefore (k + 1) (by omega)
          rw [show channels + k * channels = (k + 1) * channels from by
            rw [Nat.succ_mul]; omega]
          exact h)]
      simp only [Prod.mk.injEq, List.range_succ_eq_map, List.map_cons, List.map_map,
        Nat.zero_mul, List.drop_zero, List.cons.injEq, true_and]
      constructor
      · congr 1
        rw [Nat.succ_mul]
        omega
      · apply List.map_congr_left
        intro k hk
        simp only [Function.comp_apply]
        rw [List.drop_drop]
        rw [show channels + k * channels = Nat.succ k * channels from by
          rw [Nat.succ_mul]; omega]

/-- C8: find_color returns the index of the first palette entry matching the
color byte-for-byte (or -1 when none matches); make_indexed looks up each
color in turn, invoking output once per color with that color's palette
index and returning -1 when every color is found, and stopping at the first
color not found, returning that element's byte position; in particular a
single RGB pixel (10, 20, 30) against the 2bpp grayscale palette fails at
position 0 with no output emitted. -/
theorem C8_make_indexed_reports :
    (∀ (palette : List (List Nat)) (color : List Nat),
        (find_color palette color = -1 ∧
          ∀ j, j < palette.length → (palette.getD j []).take color.length ≠ color) ∨
        (∃ i, i < palette.length ∧ find_color palette color = ((i : Nat) : Int) ∧
          (palette.getD i []).take color.length = color ∧
          ∀ j, j < i → (palette.getD j []).take color.length ≠ color)) ∧
    (∀ (data : List Nat) (palette : List (List Nat)) (channels : Nat), 0 < channels →
        channels ∣ data.length →
        (∀ k, k < data.length / channels →
            find_color palette ((data.drop (k * channels)).take channels) ≠ -1) →
        make_indexed data palette channels =
          (-1, (List.range (data.length / channels)).map
            (fun k => (find_color palette ((data.drop (k * channels)).take channels)).toNat))) ∧
    (∀ (data : List Nat) (palette : List (List Nat)) (channels k0 : Nat), 0 < channels →
        channels ∣ data.length → k0 < data.length / channels →
        find_color palette ((data.drop (k0 * channels)).take channels) = -1 →
        (∀ k, k < k0 → find_color palette ((data.drop (k * channels)).take channels) ≠ -1) →
        make_indexed data palette channels =
          (((k0 * channels : Nat) : Int),
            (List.range k0).map
              (fun k => (find_color palette ((data.drop (k * channels)).take channels)).toNat))) ∧
    make_indexed [10, 20, 30] (grayscale_palette3 2) 3 = (0, []) := by
  refine ⟨?_, ?_, ?_, by decide⟩
  · intro palette color
    rcases find_color_go_spec color palette 0 with ⟨hres, hall⟩ | ⟨i, hi, hres, hm, hb⟩
    · left; exact ⟨hres, hall⟩
    · right
      refine ⟨i, hi, ?_, hm, hb⟩
      rw [show find_color palette color = find_color_go color palette 0 from rfl, hres]
      congr 1
      omega
  · intro data palette channels _ _ hfind
    exact make_indexed_go_success palette channels _ data 0 hfind
  · intro data palette channels k0 _ _ hk0 hfail hbefore
    have h := make_indexed_go_fail palette channels (data.length / channels) data 0 k0 hk0
      hfail hbefore
    rw [Nat.zero_add] at h
    exact h

/-- Witness for C8 at a concrete input: a two-pixel buffer whose colors are
grayscale entries 1 and 0 indexes successfully, emitting indices 1 and 0. -/
theorem C8_make_indexed_reports_witness :
    make_indexed [85, 85, 85, 0, 0, 0] (grayscale_palette3 2) 3 =
      (-1, (List.range (([85, 85, 85, 0, 0, 0] : List Nat).length / 3)).map
        (fun k => (find_color (grayscale_palette3 2)
          ((([85, 85, 85, 0, 0, 0] : List Nat).drop (k * 3)).take 3)).toNat)) :=
  C8_make_indexed_reports.2.1 [85, 85, 85, 0, 0, 0] (grayscale_palette3 2) 3 (by decide)
    (by decide) (by decide)

/-! ### Claims C1-C4 -/

/-- C1 (failing evaluation): the GBA 8bpp round-trip fails. Encoding the 8x8
buffer whose only nonzero pixel is a 1 at row 0, column 4 yields an all-zero
tile (the encoder writes byte y*4 + x, so row 1 overwrites the byte holding
that pixel), and decoding the emitted bytes gives 0 at (0, 4) where the
original buffer holds 1. -/
theorem C1_gba8_roundtrip_fails :
    encode ⟨(List.replicate 64 0).set 4 1, 8, 8, 0⟩ 8 Format.GBA =
        some [List.replicate 64 0] ∧
    ((decode (List.replicate 64 0) 8 Format.GBA).getD 0 []).getD 4 none = some 0 ∧
    Span2D.px ⟨(List.replicate 64 0).set 4 1, 8, 8, 0⟩ 0 4 = 1 := by
  refine ⟨by decide, by decide, by decide⟩

/-- C2 (counterexample): img_height on bpt*16*8 bytes (bpt = bpp*8) returns
64, not 8, already at bpp = 1; one full row-group is bpt*16 bytes. -/
theorem C2_row_group_counterexample :
    img_height (1 * 8 * 16 * 8) 1 ≠ 8 ∧ img_height (1 * 8 * 16 * 8) 1 = 64 := by
  refine ⟨by decide, by decide⟩

/-- C2 (amended): img_height rounds the byte count up to the next multiple
of bpp*8*16 and returns 8 pixels of height per such row-group, i.e.
8 * ceil(n / (bpp*8*16)); img_height(0, bpp) = 0, one full row-group of
bpp*8*16 bytes gives height 8, and bpp*8*16*8 bytes give height 64. -/
theorem C2_img_height_amended (bpp : Nat) (hb1 : 1 ≤ bpp) (hb8 : bpp ≤ 8) :
    (∀ n, img_height n bpp = 8 * ((n + bpp * 8 * 16 - 1) / (bpp * 8 * 16))) ∧
    img_height 0 bpp = 0 ∧
    img_height (bpp * 8 * 16) bpp = 8 ∧
    img_height (bpp * 8 * 16 * 8) bpp = 64 := by
  refine ⟨?_, ?_, ?_, ?_⟩
  · intro n
    simp only [img_height]
    have hT : TILES_PER_ROW = 16 := rfl
    rw [hT]
    set base := bpp * 8 * 16 with hbase
    have hbase_pos : 0 < base := by rw [hbase]; omega
    rw [Nat.div_div_eq_div_mul, ← hbase, ceil_div_eq base n hbase_pos]
    by_cases h : n % base = 0
    · rw [if_pos h, if_pos h, Nat.add_zero, Nat.mul_comm]
    · rw [if_neg h, if_neg h, Nat.mul_div_cancel _ hbase_pos, Nat.mul_comm]
  · interval_cases bpp <;> decide
  · interval_cases bpp <;> decide
  · interval_cases bpp <;> decide

/-- Witness for C2 (amended) at a concrete input: bpp = 2, 17 bytes round up
to one full row-group of 256 bytes, height 8. -/
theorem C2_img_height_amended_witness :
    img_height 17 2 = 8 * ((17 + 2 * 8 * 16 - 1) / (2 * 8 * 16)) :=
  (C2_img_height_amended 2 (by decide) (by decide)).1 17

/-- C3 (failing evaluation): bpp_size computes bpp squared, not 2^bpp: for
bpp = 3 the grayscale palette has 9 entries (not 8) with top entry
floor(255/8)*8 = 248, and for bpp = 1 it has a single entry (the C code
divides by zero computing its intensity) instead of the two entries 0 and
255. -/
theorem C3_grayscale_palette_size_bug :
    bpp_size 3 = 9 ∧ (9 : Nat) ≠ 2 ^ 3 ∧ (grayscale_palette 3).length = 9 ∧
    (grayscale_palette 3).getD 8 0 = 248 ∧ (grayscale_palette 1).length = 1 := by
  refine ⟨by decide, by decide, by decide, by decide, by decide⟩

/-- C4 (counterexample): the GBA encoder performs no bpp validation: encode
at bpp = 2, Format GBA on an 8x8 buffer is not rejected; it emits exactly
one 16-byte tile. -/
theorem C4_gba_encode_bpp2_not_rejected :
    encode ⟨List.replicate 64 0, 8, 8, 0⟩ 2 Format.GBA = some [List.replicate 16 0] := by
  decide

/-- C4 (amended): encode with width or height not a multiple of 8 reports
the error before any output: the sink is invoked zero times. The GBA decoder
rejects bpp = 2 (assert modelled as none) and succeeds for bpp = 4 and 8 on
any in-bounds tile window. The GBA encoder, however, does not validate bpp. -/
theorem C4_invalid_config_amended :
    (∀ (b : Span2D) (bpp : Nat) (format : Format), ¬(b.w % 8 = 0 ∧ b.h % 8 = 0) →
        encode b bpp format = none) ∧
    (∀ (tile : Nat → Option Nat) (y x : Nat), decoders.gba tile y x 2 = none) ∧
    (∀ (t : Nat → Nat) (y x bpp : Nat), (bpp = 4 ∨ bpp = 8) → y < 8 → x < 8 →
        (decoders.gba (fun off => if off < bpp * 8 then some (t off) else none)
          y x bpp).isSome = true) := by
  refine ⟨?_, ?_, ?_⟩
  · intro b bpp format hdim
    simp only [encode]
    rw [if_neg hdim]
  · intro tile y x
    simp only [decoders.gba]
    rw [if_neg (by decide)]
  · intro t y x bpp hb hy hx
    apply gba_isSome _ _ _ _ hb
    have hoff : y * bpp + (x >>> getbit bpp 2) < bpp * 8 := by
      rcases hb with h4 | h8
      · subst h4
        have hg : getbit 4 2 = 1 := rfl
        rw [hg, Nat.shiftRight_eq_div_pow]
        have hx2 : x / 2 ^ 1 = x / 2 := by norm_num
        rw [hx2]
        omega
      · subst h8
        have hg : getbit 8 2 = 0 := rfl
        rw [hg, Nat.shiftRight_eq_div_pow]
        have hx2 : x / 2 ^ 0 = x := by norm_num
        rw [hx2]
        omega
    rw [if_pos hoff]
    rfl

/-- Witness for C4 (amended) at concrete inputs: a 4x3 buffer is rejected
with no tile emitted, and the GBA decoder succeeds at bpp = 4. -/
theorem C4_invalid_config_amended_witness :
    encode ⟨List.replicate 12 0, 4, 3, 0⟩ 1 Format.Planar = none ∧
      (decoders.gba (fun off => if off < 4 * 8 then some ((fun _ => (0 : Nat)) off) else none)
        0 0 4).isSome = true :=
  ⟨C4_invalid_config_amended.1 ⟨List.replicate 12 0, 4, 3, 0⟩ 1 Format.Planar (by decide),
   C4_invalid_config_amended.2.2 (fun _ => 0) 0 0 4 (by decide) (by decide) (by decide)⟩

end RetroGfx
